import Mathlib

/-!
Verification development for a binary decision-tree classifier
(`find_best_split` and `DecisionTree` from `hw5code.py`).

Numeric feature values, labels and category codes are modelled as
rationals (`ℚ`); numpy arrays become lists; the recursive node fitting is
given an explicit fuel argument (the Python recursion has no bound) and
returns `none` when the fuel runs out.  `fit_node` additionally returns
the list of feature vectors on which `find_best_split` was invoked, so
that statements about which calls happen can be expressed.
-/

attribute [local semireducible] Rat.add Rat.mul Rat.sub Rat.inv

namespace HW5

/-- Tag of one feature column: `"real"` or `"categorical"`. -/
inductive FeatureType where
  | real
  | categorical
deriving DecidableEq

/-- Split payload stored in a nonterminal node: `node["threshold"]` for a
real feature, `node["categories_split"]` for a categorical one. -/
inductive SplitPayload where
  | threshold (t : ℚ)
  | categories (cats : List ℚ)
deriving DecidableEq

/-- A fitted tree node: `{"type": "terminal", "class": c}` or
`{"type": "nonterminal", "feature_split": f, ..., "left_child", "right_child"}`. -/
inductive Node where
  | terminal (label : ℚ)
  | nonterminal (feature : ℕ) (payload : SplitPayload) (left right : Node)
deriving DecidableEq

/-- The four return values of `find_best_split`. -/
structure SplitResult where
  thresholds : List ℚ
  ginis : List ℚ
  threshold_best : ℚ
  gini_best : ℚ
deriving DecidableEq

/-- First index of the maximum together with the maximum, scanning from the
left; ties keep the earlier index (semantics of `np.argmax`). -/
def argmaxAux : List ℚ → Option (ℕ × ℚ)
  | [] => none
  | x :: xs =>
    match argmaxAux xs with
    | none => some (0, x)
    | some (j, v) => if v > x then some (j + 1, v) else some (0, x)

/-- `np.argmax`: index of the first occurrence of the maximal element. -/
def argmaxFirst (l : List ℚ) : ℕ :=
  match argmaxAux l with
  | none => 0
  | some (j, _) => j

/-- Sort the (feature value, label) pairs by feature value, carrying labels
along: `feat_sort`, `target_sort` via `np.argsort(feature_vector)`. -/
def sortPairs (f t : List ℚ) : List (ℚ × ℚ) :=
  @List.insertionSort (ℚ × ℚ) (fun p q => p.1 ≤ q.1)
    (fun p q => inferInstanceAs (Decidable (p.1 ≤ q.1))) (f.zip t)

/-- `feat_sort`: the feature values in ascending order. -/
def sortedFeatures (f t : List ℚ) : List ℚ := (sortPairs f t).map Prod.fst

/-- `target_sort`: the labels permuted by the same sort. -/
def sortedTargets (f t : List ℚ) : List ℚ := (sortPairs f t).map Prod.snd

/-- Indices `i` with `feat_sort[i] != feat_sort[i+1]` (the boolean `mask`
of adjacent distinct sorted values). -/
def boundaryPositions (fs : List ℚ) : List ℕ :=
  (List.range (fs.length - 1)).filter (fun i => decide (fs.getD i 0 ≠ fs.getD (i + 1) 0))

/-- The gini criterion of the split whose left part is the `i` first sorted
samples, exactly as the vectorized cumulative-sum code computes it:
`R_l/R * (p0l^2 + p1l^2 - 1) + R_r/R * (p0r^2 + p1r^2 - 1)`. -/
def giniAt (ts : List ℚ) (i : ℕ) : ℚ :=
  let R : ℚ := ts.length
  let szl : ℚ := i
  let szr : ℚ := R - i
  let p1l : ℚ := (ts.take i).sum / szl
  let p0l : ℚ := 1 - p1l
  let p1r : ℚ := (ts.drop i).sum / szr
  let p0r : ℚ := 1 - p1r
  szl / R * (p0l ^ 2 + p1l ^ 2 - 1) + szr / R * (p0r ^ 2 + p1r ^ 2 - 1)

/-- `find_best_split(feature_vector, target_vector)`. -/
def find_best_split (feature_vector target_vector : List ℚ) : SplitResult :=
  let fs := sortedFeatures feature_vector target_vector
  let ts := sortedTargets feature_vector target_vector
  let pos := boundaryPositions fs
  let thresholds := pos.map (fun i => (fs.getD i 0 + fs.getD (i + 1) 0) / 2)
  let ginis := pos.map (fun i => giniAt ts (i + 1))
  let j := argmaxFirst ginis
  ⟨thresholds, ginis, thresholds.getD j 0, ginis.getD j 0⟩

/-- Modelled from the spec: node impurity `H(subset) = 1 - p1^2 - p0^2`
with `p1`, `p0` the fractions of positive and negative labels. -/
def giniH (sub : List ℚ) : ℚ :=
  let n : ℚ := sub.length
  let p1 : ℚ := (sub.countP (fun v => decide (v = 1)) : ℚ) / n
  let p0 : ℚ := (sub.countP (fun v => decide (v = 0)) : ℚ) / n
  1 - p1 ^ 2 - p0 ^ 2

/-- Modelled from the spec: the weighted criterion
`Q = -(|left|/R) * H(left) - (|right|/R) * H(right)` where the left part is
the `i` smallest-ranked samples of the sorted label list `ts`. -/
def weightedCriterion (ts : List ℚ) (i : ℕ) : ℚ :=
  let R : ℚ := ts.length;
  -(((i : ℚ) / R) * giniH (ts.take i)) - (((R - i) / R) * giniH (ts.drop i))

/-- Distinct values of a list in order of first occurrence (the key order
of a Python `Counter` / `dict`). -/
def distinctFirst {α : Type} [DecidableEq α] : List α → List α
  | [] => []
  | x :: xs => x :: (distinctFirst xs).filter (fun y => decide (y ≠ x))

/-- `Counter(sub_y).most_common(1)[0][0]`: the label of maximal frequency,
ties resolved in favour of the first-encountered label. -/
def majorityLabel (l : List ℚ) : ℚ :=
  let keys := distinctFirst l
  keys.getD (argmaxFirst (keys.map (fun k => (l.count k : ℚ)))) 0

/-- Boolean-mask selection `l[m]` of numpy. -/
def maskFilter {α : Type} (l : List α) (m : List Bool) : List α :=
  ((l.zip m).filter (fun p => p.2)).map Prod.fst

/-- Column `f` of the sample matrix, `sub_X[:, f]`. -/
def column (sub_X : List (List ℚ)) (f : ℕ) : List ℚ :=
  sub_X.map (fun row => row.getD f 0)

/-- `ratio[k] = clicks[k] / counts[k]`: the empirical positive-label rate of
category `k` in the current subset. -/
def categoryRatio (col ys : List ℚ) (k : ℚ) : ℚ :=
  (((col.zip ys).filter (fun p => decide (p.1 = k) && decide (p.2 = 1))).length : ℚ) /
    ((col.filter (fun v => decide (v = k))).length : ℚ)

/-- `sorted_categories`: the categories present in the column, sorted by
ascending positive rate; the sort is stable, so rate ties keep the
first-occurrence order of `Counter`. -/
def sortedCategories (col ys : List ℚ) : List ℚ :=
  @List.insertionSort ℚ (fun a b => categoryRatio col ys a ≤ categoryRatio col ys b)
    (fun a b => inferInstanceAs (Decidable (categoryRatio col ys a ≤ categoryRatio col ys b)))
    (distinctFirst col)

/-- The `feature_vector` passed to `find_best_split` for feature `f`: the raw
column for a real feature, the rank-encoded column (`categories_map[x]`) for
a categorical one. -/
def encodeFeature (ftypes : List FeatureType) (sub_X : List (List ℚ)) (sub_y : List ℚ)
    (f : ℕ) : List ℚ :=
  let col := column sub_X f
  match ftypes.getD f FeatureType.real with
  | FeatureType.real => col
  | FeatureType.categorical =>
    let cats := sortedCategories col sub_y
    col.map (fun x => (cats.indexOf x : ℚ))

/-- The categories whose rank is below the winning threshold:
`filter(lambda x: x[1] < threshold, categories_map.items())` mapped to keys. -/
def retainedCategories (cats : List ℚ) (t : ℚ) : List ℚ :=
  ((cats.zip (List.range cats.length)).filter (fun p => decide ((p.2 : ℚ) < t))).map Prod.fst

/-- The payload recorded for the winning feature: the numeric threshold for a
real feature, the below-threshold category list for a categorical one. -/
def splitPayload (ftypes : List FeatureType) (sub_X : List (List ℚ)) (sub_y : List ℚ)
    (f : ℕ) (t : ℚ) : SplitPayload :=
  match ftypes.getD f FeatureType.real with
  | FeatureType.real => SplitPayload.threshold t
  | FeatureType.categorical =>
    SplitPayload.categories (retainedCategories (sortedCategories (column sub_X f) sub_y) t)

/-- The best split recorded during the feature scan: `feature_best`, the
payload (`threshold_best`), `gini_best` and the boolean mask `split`. -/
structure ScanBest where
  feature : ℕ
  payload : SplitPayload
  gini : ℚ
  split : List Bool
deriving DecidableEq

/-- One iteration of the feature-scan loop body: skip constant vectors,
otherwise run `find_best_split` (logging the call) and keep the split when
its gini strictly improves on the incumbent. -/
def scanStep (ftypes : List FeatureType) (sub_X : List (List ℚ)) (sub_y : List ℚ)
    (acc : Option ScanBest × List (List ℚ)) (f : ℕ) : Option ScanBest × List (List ℚ) :=
  let fv := encodeFeature ftypes sub_X sub_y f
  if fv.all (fun v => decide (v = fv.headD 0)) then acc
  else
    let s := find_best_split fv sub_y
    let b : ScanBest :=
      ⟨f, splitPayload ftypes sub_X sub_y f s.threshold_best, s.gini_best,
        fv.map (fun v => decide (v < s.threshold_best))⟩
    let best :=
      match acc.1 with
      | none => some b
      | some old => if s.gini_best > old.gini then some b else some old
    (best, acc.2 ++ [fv])

/-- The whole feature scan (`for feature in range(sub_X.shape[1])`), returning
the winning split (if any) and the list of feature vectors on which
`find_best_split` was invoked. -/
def scanFeatures (ftypes : List FeatureType) (sub_X : List (List ℚ)) (sub_y : List ℚ) :
    Option ScanBest × List (List ℚ) :=
  (List.range (sub_X.headD []).length).foldl (scanStep ftypes sub_X sub_y) (none, [])

/-- `DecisionTree._fit_node`, with fuel.  Returns the fitted subtree and the
log of feature vectors passed to `find_best_split` anywhere below this node,
or `none` when the fuel is exhausted. -/
def fit_node (mss : ℕ) (ftypes : List FeatureType) :
    ℕ → List (List ℚ) → List ℚ → Option (Node × List (List ℚ))
  | 0, _, _ => none
  | fuel + 1, sub_X, sub_y =>
    if sub_y.all (fun v => decide (v = sub_y.headD 0)) then
      some (Node.terminal (sub_y.headD 0), [])
    else if sub_y.length ≤ mss then
      some (Node.terminal (majorityLabel sub_y), [])
    else
      match scanFeatures ftypes sub_X sub_y with
      | (none, calls) => some (Node.terminal (majorityLabel sub_y), calls)
      | (some b, calls) =>
        let notSplit := b.split.map (fun x => !x)
        match fit_node mss ftypes fuel (maskFilter sub_X b.split) (maskFilter sub_y b.split),
              fit_node mss ftypes fuel (maskFilter sub_X notSplit) (maskFilter sub_y notSplit) with
        | some (lc, cl), some (rc, cr) =>
          some (Node.nonterminal b.feature b.payload lc rc, calls ++ cl ++ cr)
        | _, _ => none

/-- Reading `node["threshold"]` (junk on a categorical payload, which the
source never does). -/
def payloadThreshold : SplitPayload → ℚ
  | SplitPayload.threshold t => t
  | SplitPayload.categories _ => 0

/-- Reading `node["categories_split"]` (junk on a real payload, which the
source never does). -/
def payloadCategories : SplitPayload → List ℚ
  | SplitPayload.threshold _ => []
  | SplitPayload.categories cs => cs

/-- `DecisionTree._predict_node`: route by comparing with the threshold for a
real feature, by membership in the retained category list for a categorical
one, until a terminal is reached. -/
def predict_node (ftypes : List FeatureType) (x : List ℚ) : Node → ℚ
  | Node.terminal c => c
  | Node.nonterminal f p lc rc =>
    match ftypes.getD f FeatureType.real with
    | FeatureType.real =>
      if x.getD f 0 < payloadThreshold p then predict_node ftypes x lc
      else predict_node ftypes x rc
    | FeatureType.categorical =>
      if x.getD f 0 ∈ payloadCategories p then predict_node ftypes x lc
      else predict_node ftypes x rc

/-- The model: feature types plus the stored hyperparameters
(`max_depth` and `min_samples_leaf` are stored but never read by the
fitting or prediction code). -/
structure DecisionTree where
  feature_types : List FeatureType
  max_depth : Option ℕ := none
  min_samples_split : ℕ := 2
  min_samples_leaf : Option ℕ := none

/-- `fit(X, y)`: the fitted root, with fuel `y.length + 1` (enough for the
recursion, which strictly shrinks nonempty subsets). -/
def DecisionTree.fitTree (t : DecisionTree) (X : List (List ℚ)) (y : List ℚ) : Option Node :=
  (fit_node t.min_samples_split t.feature_types (y.length + 1) X y).map Prod.fst

/-- `predict(X)` over a fitted root: one label per row, in order. -/
def DecisionTree.predictList (t : DecisionTree) (root : Node) (X : List (List ℚ)) : List ℚ :=
  X.map (fun x => predict_node t.feature_types x root)

/-- Boolean mirror of `fit_node` that holds exactly when the fit succeeds and
every terminal node it creates is created from a subset with all-equal
labels (every leaf is pure). -/
def allLeavesPure (mss : ℕ) (ftypes : List FeatureType) :
    ℕ → List (List ℚ) → List ℚ → Bool
  | 0, _, _ => false
  | fuel + 1, sub_X, sub_y =>
    if sub_y.all (fun v => decide (v = sub_y.headD 0)) then true
    else if sub_y.length ≤ mss then false
    else
      match scanFeatures ftypes sub_X sub_y with
      | (none, _) => false
      | (some b, _) =>
        let notSplit := b.split.map (fun x => !x)
        allLeavesPure mss ftypes fuel (maskFilter sub_X b.split) (maskFilter sub_y b.split) &&
        allLeavesPure mss ftypes fuel (maskFilter sub_X notSplit) (maskFilter sub_y notSplit)

/-! ### Lemmas about `argmaxFirst` -/

theorem argmaxAux_eq_none_iff (l : List ℚ) : argmaxAux l = none ↔ l = [] := by
  cases l with
  | nil => simp [argmaxAux]
  | cons x xs =>
    simp only [argmaxAux]
    cases h : argmaxAux xs with
    | none => simp
    | some p => rcases p with ⟨j, v⟩; by_cases hv : v > x <;> simp [hv]

theorem argmaxAux_some_spec (l : List ℚ) (j : ℕ) (v : ℚ) (d : ℚ)
    (h : argmaxAux l = some (j, v)) :
    j < l.length ∧ l.getD j d = v ∧ (∀ k, k < l.length → l.getD k d ≤ v) ∧
      (∀ k, k < j → l.getD k d < v) := by
  induction l generalizing j v with
  | nil => simp [argmaxAux] at h
  | cons x xs ih =>
    simp only [argmaxAux] at h
    cases h' : argmaxAux xs with
    | none =>
      have hxs : xs = [] := (argmaxAux_eq_none_iff xs).mp h'
      rw [h'] at h
      simp only [Option.some.injEq, Prod.mk.injEq] at h
      obtain ⟨hj, hv⟩ := h
      subst hxs; subst hj; subst hv
      refine ⟨by simp, by simp, ?_, ?_⟩
      · intro k hk
        have hk0 : k = 0 := by simpa using hk
        subst hk0; simp
      · intro k hk; omega
    | some p =>
      rcases p with ⟨j', v'⟩
      rw [h'] at h
      rcases ih j' v' h' with ⟨hlt, hget, hle, hstrict⟩
      by_cases hv : v' > x
      · simp only [hv, if_pos] at h
        simp only [Option.some.injEq, Prod.mk.injEq] at h
        rcases h with ⟨hj, hvv⟩
        subst hj; subst hvv
        refine ⟨by simpa using hlt, by simpa using hget, ?_, ?_⟩
        · intro k hk
          cases k with
          | zero => simpa using le_of_lt hv
          | succ k => simpa using hle k (by simpa using hk)
        · intro k hk
          cases k with
          | zero => simpa using hv
          | succ k => simpa using hstrict k (by omega)
      · simp only [hv, if_neg, if_false] at h
        simp only [Option.some.injEq, Prod.mk.injEq] at h
        rcases h with ⟨hj, hvv⟩
        subst hj; subst hvv
        refine ⟨by simp, by simp, ?_, ?_⟩
        · intro k hk
          cases k with
          | zero => simp
          | succ k =>
            have := hle k (by simpa using hk)
            simp only [List.getD_cons_succ]
            exact le_trans this (not_lt.mp hv)
        · intro k hk; omega

theorem argmaxFirst_lt_length (l : List ℚ) (h : l ≠ []) : argmaxFirst l < l.length := by
  unfold argmaxFirst
  cases h' : argmaxAux l with
  | none => exact absurd ((argmaxAux_eq_none_iff l).mp h') h
  | some p =>
    rcases p with ⟨j, v⟩
    exact (argmaxAux_some_spec l j v 0 h').1

theorem getD_le_argmaxFirst (l : List ℚ) (k : ℕ) (d : ℚ) (hk : k < l.length) :
    l.getD k d ≤ l.getD (argmaxFirst l) d := by
  unfold argmaxFirst
  cases h' : argmaxAux l with
  | none =>
    have : l = [] := (argmaxAux_eq_none_iff l).mp h'
    subst this; simp at hk
  | some p =>
    rcases p with ⟨j, v⟩
    rcases argmaxAux_some_spec l j v d h' with ⟨_, hget, hle, _⟩
    rw [hget]
    exact hle k hk

theorem getD_lt_argmaxFirst_of_lt (l : List ℚ) (k : ℕ) (d : ℚ) (hk : k < argmaxFirst l) :
    l.getD k d < l.getD (argmaxFirst l) d := by
  unfold argmaxFirst at hk ⊢
  cases h' : argmaxAux l with
  | none => rw [h'] at hk; exact absurd hk (by simp)
  | some p =>
    rcases p with ⟨j, v⟩
    rw [h'] at hk
    rcases argmaxAux_some_spec l j v d h' with ⟨_, hget, _, hstrict⟩
    rw [hget]
    exact hstrict k hk

/-! ### Lemmas about `distinctFirst`, `majorityLabel`, `maskFilter` -/

theorem mem_distinctFirst {α : Type} [DecidableEq α] (a : α) :
    ∀ l : List α, a ∈ distinctFirst l ↔ a ∈ l := by
  intro l
  induction l with
  | nil => simp [distinctFirst]
  | cons x xs ih =>
    simp only [distinctFirst, List.mem_cons, List.mem_filter, ih, decide_eq_true_eq]
    by_cases hax : a = x
    · simp [hax]
    · simp [hax]

theorem nodup_distinctFirst {α : Type} [DecidableEq α] :
    ∀ l : List α, (distinctFirst l).Nodup := by
  intro l
  induction l with
  | nil => simp [distinctFirst]
  | cons x xs ih =>
    simp only [distinctFirst, List.nodup_cons]
    constructor
    · intro hmem
      rcases List.mem_filter.mp hmem with ⟨_, hx⟩
      simp at hx
    · exact ih.filter _

theorem distinctFirst_ne_nil {α : Type} [DecidableEq α] (l : List α) (h : l ≠ []) :
    distinctFirst l ≠ [] := by
  cases l with
  | nil => exact absurd rfl h
  | cons x xs => simp [distinctFirst]

theorem maskFilter_cons {α : Type} (a : α) (l : List α) (b : Bool) (m : List Bool) :
    maskFilter (a :: l) (b :: m) =
      if b then a :: maskFilter l m else maskFilter l m := by
  cases b <;> simp [maskFilter]

theorem length_maskFilter {α : Type} (l : List α) (m : List Bool) (h : l.length = m.length) :
    (maskFilter l m).length = m.count true := by
  induction l generalizing m with
  | nil =>
    cases m with
    | nil => simp [maskFilter]
    | cons b m => simp at h
  | cons a l ih =>
    cases m with
    | nil => simp at h
    | cons b m =>
      have h' : l.length = m.length := by simpa using h
      rw [maskFilter_cons]
      cases b <;> simp [List.count_cons, ih m h']

theorem maskFilter_getD {α : Type} (l : List α) (m : List Bool) (i : ℕ) (d : α)
    (h : l.length = m.length) (hi : i < l.length) (hm : m.getD i false = true) :
    ((m.take i).count true < (maskFilter l m).length) ∧
      (maskFilter l m).getD ((m.take i).count true) d = l.getD i d := by
  induction l generalizing m i with
  | nil => simp at hi
  | cons a l ih =>
    cases m with
    | nil => simp at h
    | cons b m =>
      have h' : l.length = m.length := by simpa using h
      cases i with
      | zero =>
        simp only [List.getD_cons_zero] at hm ⊢
        subst hm
        rw [maskFilter_cons]
        simp [length_maskFilter l m h']
      | succ i =>
        have hi' : i < l.length := by simpa using hi
        have hm' : m.getD i false = true := by simpa using hm
        rcases ih m i h' hi' hm' with ⟨h1, h2⟩
        rw [maskFilter_cons]
        cases b with
        | false =>
          rw [if_neg (by simp), List.take_succ_cons]
          have hc : (false :: List.take i m).count true = (List.take i m).count true := by
            simp [List.count_cons]
          rw [hc, List.getD_cons_succ]
          exact ⟨h1, h2⟩
        | true =>
          rw [if_pos rfl, List.take_succ_cons]
          have hc : (true :: List.take i m).count true = (List.take i m).count true + 1 :=
            List.count_cons_self _ _
          rw [hc, List.getD_cons_succ, List.getD_cons_succ]
          exact ⟨by simpa using Nat.succ_lt_succ h1, h2⟩

/-! ### Lemmas about the sorted pairs and boundary positions -/

theorem getD_mem {α : Type} (l : List α) (k : ℕ) (d : α) (hk : k < l.length) :
    l.getD k d ∈ l := by
  rw [List.getD_eq_getElem l d hk]
  exact List.getElem_mem hk

theorem getD_map_of_lt {α β : Type} (g : α → β) (l : List α) (k : ℕ) (d : α) (d' : β)
    (hk : k < l.length) : (l.map g).getD k d' = g (l.getD k d) := by
  rw [List.getD_eq_getElem _ d' (by simpa using hk), List.getD_eq_getElem _ d hk,
    List.getElem_map]

theorem sortPairs_perm (f t : List ℚ) : (sortPairs f t).Perm (f.zip t) :=
  List.perm_insertionSort _ _

theorem sortPairs_sorted (f t : List ℚ) :
    List.Pairwise (fun p q : ℚ × ℚ => p.1 ≤ q.1) (sortPairs f t) :=
  @List.sorted_insertionSort (ℚ × ℚ) (fun p q => p.1 ≤ q.1)
    (fun p q => inferInstanceAs (Decidable (p.1 ≤ q.1)))
    ⟨fun a b => le_total a.1 b.1⟩ ⟨fun _ _ _ hab hbc => le_trans hab hbc⟩ (f.zip t)

theorem length_sortedFeatures (f t : List ℚ) :
    (sortedFeatures f t).length = min f.length t.length := by
  rw [sortedFeatures, List.length_map, (sortPairs_perm f t).length_eq, List.length_zip]

theorem length_sortedTargets (f t : List ℚ) :
    (sortedTargets f t).length = min f.length t.length := by
  rw [sortedTargets, List.length_map, (sortPairs_perm f t).length_eq, List.length_zip]

theorem sortedFeatures_perm (f t : List ℚ) (h : f.length = t.length) :
    (sortedFeatures f t).Perm f := by
  have h1 := (sortPairs_perm f t).map Prod.fst
  rwa [List.map_fst_zip f t (le_of_eq h)] at h1

theorem sortedTargets_perm (f t : List ℚ) (h : f.length = t.length) :
    (sortedTargets f t).Perm t := by
  have h1 := (sortPairs_perm f t).map Prod.snd
  rwa [List.map_snd_zip f t (le_of_eq h.symm)] at h1

theorem sortedFeatures_sorted (f t : List ℚ) :
    List.Sorted (· ≤ ·) (sortedFeatures f t) := by
  rw [sortedFeatures]
  exact (List.pairwise_map).mpr (sortPairs_sorted f t)

theorem sorted_getD_mono (fs : List ℚ) (hs : List.Sorted (· ≤ ·) fs) (i j : ℕ)
    (hij : i ≤ j) (hj : j < fs.length) : fs.getD i 0 ≤ fs.getD j 0 := by
  rcases Nat.eq_or_lt_of_le hij with rfl | hlt
  · exact le_refl _
  · rw [List.getD_eq_getElem fs 0 (lt_trans hlt hj), List.getD_eq_getElem fs 0 hj]
    exact List.pairwise_iff_getElem.mp hs i j (lt_trans hlt hj) hj hlt

theorem mem_boundaryPositions (fs : List ℚ) (p : ℕ) :
    p ∈ boundaryPositions fs ↔ p < fs.length - 1 ∧ fs.getD p 0 ≠ fs.getD (p + 1) 0 := by
  simp [boundaryPositions, List.mem_filter, List.mem_range]

theorem boundary_lt (fs : List ℚ) (hs : List.Sorted (· ≤ ·) fs) (p : ℕ)
    (hp : p ∈ boundaryPositions fs) : fs.getD p 0 < fs.getD (p + 1) 0 := by
  rcases (mem_boundaryPositions fs p).mp hp with ⟨hlen, hne⟩
  exact lt_of_le_of_ne (sorted_getD_mono fs hs p (p + 1) (by omega) (by omega)) hne

theorem pairwise_boundaryPositions (fs : List ℚ) :
    List.Pairwise (· < ·) (boundaryPositions fs) :=
  (List.pairwise_lt_range _).filter _

theorem thresholds_pairwise (fs : List ℚ) (hs : List.Sorted (· ≤ ·) fs) :
    List.Pairwise (· < ·)
      ((boundaryPositions fs).map (fun i => (fs.getD i 0 + fs.getD (i + 1) 0) / 2)) := by
  rw [List.pairwise_map]
  refine List.Pairwise.imp_of_mem ?_ (pairwise_boundaryPositions fs)
  intro p q hp hq hpq
  have h1 : fs.getD p 0 < fs.getD (p + 1) 0 := boundary_lt fs hs p hp
  have h2 : fs.getD q 0 < fs.getD (q + 1) 0 := boundary_lt fs hs q hq
  rcases (mem_boundaryPositions fs q).mp hq with ⟨hql, _⟩
  have h3 : fs.getD (p + 1) 0 ≤ fs.getD q 0 :=
    sorted_getD_mono fs hs (p + 1) q (by omega) (by omega)
  linarith

theorem getD_const_of_no_boundary (fs : List ℚ)
    (h : ∀ p, p + 1 < fs.length → fs.getD p 0 = fs.getD (p + 1) 0) :
    ∀ i, i < fs.length → fs.getD i 0 = fs.getD 0 0 := by
  intro i
  induction i with
  | zero => intro _; rfl
  | succ i ih =>
    intro hi
    rw [← h i (by omega)]
    exact ih (by omega)

theorem boundaryPositions_ne_nil (fs : List ℚ) (a b : ℚ) (ha : a ∈ fs) (hb : b ∈ fs)
    (hab : a ≠ b) : boundaryPositions fs ≠ [] := by
  intro hnil
  have hall : ∀ p, p + 1 < fs.length → fs.getD p 0 = fs.getD (p + 1) 0 := by
    intro p hp
    by_contra hne
    have hmem : p ∈ boundaryPositions fs := (mem_boundaryPositions fs p).mpr ⟨by omega, hne⟩
    rw [hnil] at hmem
    simp at hmem
  obtain ⟨ia, hia, hga⟩ := List.mem_iff_getElem.mp ha
  obtain ⟨ib, hib, hgb⟩ := List.mem_iff_getElem.mp hb
  apply hab
  rw [← hga, ← hgb, ← List.getD_eq_getElem fs 0 hia, ← List.getD_eq_getElem fs 0 hib,
    getD_const_of_no_boundary fs hall ia hia, getD_const_of_no_boundary fs hall ib hib]

/-! ### Projection equations for `find_best_split` -/

theorem find_best_split_thresholds (f t : List ℚ) :
    (find_best_split f t).thresholds =
      (boundaryPositions (sortedFeatures f t)).map
        (fun i => ((sortedFeatures f t).getD i 0 + (sortedFeatures f t).getD (i + 1) 0) / 2) :=
  rfl

theorem find_best_split_ginis (f t : List ℚ) :
    (find_best_split f t).ginis =
      (boundaryPositions (sortedFeatures f t)).map
        (fun i => giniAt (sortedTargets f t) (i + 1)) :=
  rfl

theorem find_best_split_threshold_best (f t : List ℚ) :
    (find_best_split f t).threshold_best =
      (find_best_split f t).thresholds.getD (argmaxFirst (find_best_split f t).ginis) 0 :=
  rfl

theorem find_best_split_gini_best (f t : List ℚ) :
    (find_best_split f t).gini_best =
      (find_best_split f t).ginis.getD (argmaxFirst (find_best_split f t).ginis) 0 :=
  rfl

theorem length_find_best_split_ginis (f t : List ℚ) :
    (find_best_split f t).ginis.length = (boundaryPositions (sortedFeatures f t)).length := by
  rw [find_best_split_ginis, List.length_map]

theorem length_find_best_split_thresholds (f t : List ℚ) :
    (find_best_split f t).thresholds.length =
      (boundaryPositions (sortedFeatures f t)).length := by
  rw [find_best_split_thresholds, List.length_map]

theorem headD_mem {α : Type} (l : List α) (d : α) (h : l ≠ []) : l.headD d ∈ l := by
  cases l with
  | nil => exact absurd rfl h
  | cons x xs => simp

theorem not_all_eq_head (l : List ℚ) (d : ℚ)
    (h : ¬ (l.all (fun v => decide (v = l.headD d)) = true)) :
    ∃ a ∈ l, ∃ b ∈ l, a ≠ b := by
  simp only [List.all_eq_true, decide_eq_true_eq] at h
  push_neg at h
  obtain ⟨a, ha, hne⟩ := h
  have hl : l ≠ [] := by rintro rfl; simp at ha
  exact ⟨a, ha, l.headD d, headD_mem l d hl, hne⟩

theorem ginis_ne_nil (f t : List ℚ) (hnc : ∃ a ∈ f, ∃ b ∈ f, a ≠ b)
    (hlen : f.length = t.length) : (find_best_split f t).ginis ≠ [] := by
  obtain ⟨a, ha, b, hb, hab⟩ := hnc
  have hperm := sortedFeatures_perm f t hlen
  have hane : boundaryPositions (sortedFeatures f t) ≠ [] :=
    boundaryPositions_ne_nil _ a b (hperm.mem_iff.mpr ha) (hperm.mem_iff.mpr hb) hab
  rw [find_best_split_ginis]
  simpa using hane

theorem threshold_best_between (f t : List ℚ) (hlen : f.length = t.length)
    (hnc : ∃ a ∈ f, ∃ b ∈ f, a ≠ b) :
    (∃ a ∈ f, a < (find_best_split f t).threshold_best) ∧
      (∃ b ∈ f, ¬ (b < (find_best_split f t).threshold_best)) := by
  have hperm := sortedFeatures_perm f t hlen
  have hsort := sortedFeatures_sorted f t
  have hgnil := ginis_ne_nil f t hnc hlen
  have hjg : argmaxFirst (find_best_split f t).ginis < (find_best_split f t).ginis.length :=
    argmaxFirst_lt_length _ hgnil
  have hjlt : argmaxFirst (find_best_split f t).ginis <
      (boundaryPositions (sortedFeatures f t)).length :=
    (length_find_best_split_ginis f t) ▸ hjg
  set fs := sortedFeatures f t with hfs
  set j := argmaxFirst (find_best_split f t).ginis with hj
  set p := (boundaryPositions fs).getD j 0 with hp
  have hpmem : p ∈ boundaryPositions fs := getD_mem _ j 0 hjlt
  have hblt : fs.getD p 0 < fs.getD (p + 1) 0 := boundary_lt fs hsort p hpmem
  have hplen : p < fs.length - 1 := ((mem_boundaryPositions fs p).mp hpmem).1
  have hth : (find_best_split f t).threshold_best = (fs.getD p 0 + fs.getD (p + 1) 0) / 2 := by
    rw [find_best_split_threshold_best, find_best_split_thresholds]
    exact getD_map_of_lt _ _ j 0 0 hjlt
  constructor
  · exact ⟨fs.getD p 0, hperm.mem_iff.mp (getD_mem fs p 0 (by omega)),
      by rw [hth]; linarith⟩
  · refine ⟨fs.getD (p + 1) 0, hperm.mem_iff.mp (getD_mem fs (p + 1) 0 (by omega)), ?_⟩
    rw [hth]
    push_neg
    linarith

/-! ### Binary-label arithmetic for the gini criterion -/

theorem sum_eq_countP_one (l : List ℚ) (h : ∀ v ∈ l, v = 0 ∨ v = 1) :
    l.sum = (l.countP (fun v => decide (v = 1)) : ℚ) := by
  induction l with
  | nil => simp
  | cons x xs ih =>
    have ih' := ih (fun v hv => h v (by simp [hv]))
    rcases h x (by simp) with h0 | h1
    · subst h0
      rw [List.sum_cons, ih', List.countP_cons]
      norm_num
    · subst h1
      rw [List.sum_cons, ih', List.countP_cons]
      norm_num
      push_cast
      ring

theorem countP_zero_add_one (l : List ℚ) (h : ∀ v ∈ l, v = 0 ∨ v = 1) :
    l.countP (fun v => decide (v = 0)) + l.countP (fun v => decide (v = 1)) = l.length := by
  induction l with
  | nil => simp
  | cons x xs ih =>
    have ih' := ih (fun v hv => h v (by simp [hv]))
    rcases h x (by simp) with h0 | h1
    · subst h0
      rw [List.countP_cons, List.countP_cons]
      norm_num
      omega
    · subst h1
      rw [List.countP_cons, List.countP_cons]
      norm_num
      omega

theorem giniAt_eq_weightedCriterion (ts : List ℚ) (hbin : ∀ v ∈ ts, v = 0 ∨ v = 1)
    (i : ℕ) (hi1 : 1 ≤ i) (hi2 : i < ts.length) :
    giniAt ts i = weightedCriterion ts i := by
  have hbt : ∀ v ∈ ts.take i, v = 0 ∨ v = 1 := fun v hv => hbin v (List.mem_of_mem_take hv)
  have hbd : ∀ v ∈ ts.drop i, v = 0 ∨ v = 1 := fun v hv => hbin v (List.mem_of_mem_drop hv)
  have hlt : (ts.take i).length = i := by rw [List.length_take]; omega
  have hld : (ts.drop i).length = ts.length - i := List.length_drop _ _
  have hst := sum_eq_countP_one _ hbt
  have hsd := sum_eq_countP_one _ hbd
  have hct := countP_zero_add_one _ hbt
  have hcd := countP_zero_add_one _ hbd
  rw [hlt] at hct
  rw [hld] at hcd
  have e0t : ((ts.take i).countP (fun v => decide (v = 0)) : ℚ) =
      (i : ℚ) - ((ts.take i).countP (fun v => decide (v = 1)) : ℚ) := by
    have := congrArg (fun n : ℕ => (n : ℚ)) hct
    push_cast at this
    linarith
  have e0d : ((ts.drop i).countP (fun v => decide (v = 0)) : ℚ) =
      ((ts.length : ℚ) - i) - ((ts.drop i).countP (fun v => decide (v = 1)) : ℚ) := by
    have := congrArg (fun n : ℕ => (n : ℚ)) hcd
    push_cast at this
    have hc : ((ts.length - i : ℕ) : ℚ) = (ts.length : ℚ) - i := by
      push_cast [Nat.cast_sub (le_of_lt hi2)]
      ring
    linarith [hc ▸ this]
  have hR0 : (ts.length : ℚ) ≠ 0 := by
    have : 0 < ts.length := by omega
    exact_mod_cast Nat.pos_iff_ne_zero.mp this
  have hi0 : (i : ℚ) ≠ 0 := by
    exact_mod_cast Nat.pos_iff_ne_zero.mp (by omega)
  have hRi0 : (ts.length : ℚ) - i ≠ 0 := by
    have h1 : (i : ℚ) < ts.length := by exact_mod_cast hi2
    linarith
  simp only [giniAt, weightedCriterion, giniH, hst, hsd, hlt, hld]
  rw [e0t, e0d]
  have hc : ((ts.length - i : ℕ) : ℚ) = (ts.length : ℚ) - i := by
    push_cast [Nat.cast_sub (le_of_lt hi2)]
    ring
  rw [hc]
  field_simp
  ring

/-! ### Claims C1, C2, C3 about `find_best_split` -/

/-- C1: for every non-constant feature vector and same-length binary label
vector, each gini value returned by `find_best_split` at a candidate split
position equals the spec's weighted criterion
`Q = -(|left|/R)·H(left) - (|right|/R)·H(right)` with
`H(subset) = 1 - p1² - p0²`, the left part being the `i` smallest-ranked
samples. -/
theorem C1_gini_eq_weightedCriterion (f t : List ℚ)
    (hlen : f.length = t.length)
    (hbin : ∀ v ∈ t, v = 0 ∨ v = 1)
    (hnc : ∃ a ∈ f, ∃ b ∈ f, a ≠ b) :
    ∀ k, k < (find_best_split f t).ginis.length →
      (find_best_split f t).ginis.getD k 0 =
        weightedCriterion (sortedTargets f t)
          ((boundaryPositions (sortedFeatures f t)).getD k 0 + 1) := by
  intro k hk
  have hklt : k < (boundaryPositions (sortedFeatures f t)).length :=
    (length_find_best_split_ginis f t) ▸ hk
  rw [find_best_split_ginis, getD_map_of_lt _ _ k 0 0 hklt]
  have hpmem := getD_mem _ k 0 hklt
  have hplen : (boundaryPositions (sortedFeatures f t)).getD k 0 <
      (sortedFeatures f t).length - 1 :=
    ((mem_boundaryPositions _ _).mp hpmem).1
  have hfl : (sortedFeatures f t).length = t.length := by
    rw [length_sortedFeatures, hlen, min_self]
  have htl : (sortedTargets f t).length = t.length := by
    rw [length_sortedTargets, hlen, min_self]
  apply giniAt_eq_weightedCriterion
  · intro v hv
    exact hbin v ((sortedTargets_perm f t hlen).mem_iff.mp hv)
  · omega
  · omega

/-- C1 witness: the hypotheses and the conclusion of
`C1_gini_eq_weightedCriterion` hold at the concrete input
`feature_vector = [1,2,2,3]`, `target_vector = [0,1,1,1]`. -/
theorem C1_gini_eq_weightedCriterion_witness :
    (([1, 2, 2, 3] : List ℚ).length = ([0, 1, 1, 1] : List ℚ).length) ∧
    (∀ v ∈ ([0, 1, 1, 1] : List ℚ), v = 0 ∨ v = 1) ∧
    (∃ a ∈ ([1, 2, 2, 3] : List ℚ), ∃ b ∈ ([1, 2, 2, 3] : List ℚ), a ≠ b) ∧
    (∀ k, k < (find_best_split [1, 2, 2, 3] [0, 1, 1, 1]).ginis.length →
      (find_best_split [1, 2, 2, 3] [0, 1, 1, 1]).ginis.getD k 0 =
        weightedCriterion (sortedTargets [1, 2, 2, 3] [0, 1, 1, 1])
          ((boundaryPositions (sortedFeatures [1, 2, 2, 3] [0, 1, 1, 1])).getD k 0 + 1)) :=
  ⟨by decide, by decide, by decide,
    C1_gini_eq_weightedCriterion [1, 2, 2, 3] [0, 1, 1, 1] (by decide) (by decide) (by decide)⟩

/-- C2: for a non-constant feature vector the returned thresholds are the
midpoints between adjacent distinct sorted feature values, strictly
ascending, as many as there are adjacent distinct-value boundaries, and the
gini list has the same length. -/
theorem C2_thresholds_strictly_ascending (f t : List ℚ)
    (hnc : ∃ a ∈ f, ∃ b ∈ f, a ≠ b) :
    (find_best_split f t).thresholds =
      (boundaryPositions (sortedFeatures f t)).map
        (fun i => ((sortedFeatures f t).getD i 0 + (sortedFeatures f t).getD (i + 1) 0) / 2) ∧
    List.Pairwise (· < ·) (find_best_split f t).thresholds ∧
    (find_best_split f t).thresholds.length =
      (List.range ((sortedFeatures f t).length - 1)).countP
        (fun i =>
          decide ((sortedFeatures f t).getD i 0 ≠ (sortedFeatures f t).getD (i + 1) 0)) ∧
    (find_best_split f t).ginis.length = (find_best_split f t).thresholds.length := by
  refine ⟨find_best_split_thresholds f t, ?_, ?_, ?_⟩
  · rw [find_best_split_thresholds]
    exact thresholds_pairwise _ (sortedFeatures_sorted f t)
  · rw [length_find_best_split_thresholds, boundaryPositions]
    exact (List.countP_eq_length_filter _ _).symm
  · rw [length_find_best_split_ginis, length_find_best_split_thresholds]

/-- C2 witness: the hypothesis and the conclusion of
`C2_thresholds_strictly_ascending` hold at `[1,2,2,3]`, `[0,1,1,1]`. -/
theorem C2_thresholds_strictly_ascending_witness :
    (∃ a ∈ ([1, 2, 2, 3] : List ℚ), ∃ b ∈ ([1, 2, 2, 3] : List ℚ), a ≠ b) ∧
    ((find_best_split [1, 2, 2, 3] [0, 1, 1, 1]).thresholds =
      (boundaryPositions (sortedFeatures [1, 2, 2, 3] [0, 1, 1, 1])).map
        (fun i => ((sortedFeatures [1, 2, 2, 3] [0, 1, 1, 1]).getD i 0 +
          (sortedFeatures [1, 2, 2, 3] [0, 1, 1, 1]).getD (i + 1) 0) / 2) ∧
    List.Pairwise (· < ·) (find_best_split [1, 2, 2, 3] [0, 1, 1, 1]).thresholds ∧
    (find_best_split [1, 2, 2, 3] [0, 1, 1, 1]).thresholds.length =
      (List.range ((sortedFeatures [1, 2, 2, 3] [0, 1, 1, 1]).length - 1)).countP
        (fun i => decide ((sortedFeatures [1, 2, 2, 3] [0, 1, 1, 1]).getD i 0 ≠
          (sortedFeatures [1, 2, 2, 3] [0, 1, 1, 1]).getD (i + 1) 0)) ∧
    (find_best_split [1, 2, 2, 3] [0, 1, 1, 1]).ginis.length =
      (find_best_split [1, 2, 2, 3] [0, 1, 1, 1]).thresholds.length) :=
  ⟨by decide, C2_thresholds_strictly_ascending [1, 2, 2, 3] [0, 1, 1, 1] (by decide)⟩

/-- C3: the best split is the argmax of the ginis; ties are resolved to the
first maximal index, i.e. the smallest threshold among the tied ones. -/
theorem C3_best_is_first_argmax (f t : List ℚ) (hlen : f.length = t.length)
    (hnc : ∃ a ∈ f, ∃ b ∈ f, a ≠ b) :
    argmaxFirst (find_best_split f t).ginis < (find_best_split f t).ginis.length ∧
    (find_best_split f t).gini_best =
      (find_best_split f t).ginis.getD (argmaxFirst (find_best_split f t).ginis) 0 ∧
    (find_best_split f t).threshold_best =
      (find_best_split f t).thresholds.getD (argmaxFirst (find_best_split f t).ginis) 0 ∧
    (∀ k, k < (find_best_split f t).ginis.length →
      (find_best_split f t).ginis.getD k 0 ≤ (find_best_split f t).gini_best) ∧
    (∀ k, k < argmaxFirst (find_best_split f t).ginis →
      (find_best_split f t).ginis.getD k 0 < (find_best_split f t).gini_best) ∧
    (∀ k, k < (find_best_split f t).ginis.length →
      (find_best_split f t).ginis.getD k 0 = (find_best_split f t).gini_best →
      (find_best_split f t).threshold_best ≤ (find_best_split f t).thresholds.getD k 0) := by
  have hgnil := ginis_ne_nil f t hnc hlen
  have hj := argmaxFirst_lt_length _ hgnil
  refine ⟨hj, find_best_split_gini_best f t, find_best_split_threshold_best f t, ?_, ?_, ?_⟩
  · intro k hk
    rw [find_best_split_gini_best]
    exact getD_le_argmaxFirst _ k 0 hk
  · intro k hk
    rw [find_best_split_gini_best]
    exact getD_lt_argmaxFirst_of_lt _ k 0 hk
  · intro k hk hke
    have hjk : argmaxFirst (find_best_split f t).ginis ≤ k := by
      by_contra hlt
      push_neg at hlt
      have hstrict := getD_lt_argmaxFirst_of_lt (find_best_split f t).ginis k 0 hlt
      rw [← find_best_split_gini_best] at hstrict
      exact absurd hke (ne_of_lt hstrict)
    have hpw : List.Pairwise (· < ·) (find_best_split f t).thresholds := by
      rw [find_best_split_thresholds]
      exact thresholds_pairwise _ (sortedFeatures_sorted f t)
    have hklen : k < (find_best_split f t).thresholds.length := by
      rw [length_find_best_split_thresholds, ← length_find_best_split_ginis]
      exact hk
    have hjlen : argmaxFirst (find_best_split f t).ginis <
        (find_best_split f t).thresholds.length := by
      rw [length_find_best_split_thresholds, ← length_find_best_split_ginis]
      exact hj
    rw [find_best_split_threshold_best]
    rcases Nat.eq_or_lt_of_le hjk with heq | hlt
    · rw [heq]
    · rw [List.getD_eq_getElem _ 0 hjlen, List.getD_eq_getElem _ 0 hklen]
      exact le_of_lt (List.pairwise_iff_getElem.mp hpw _ k hjlen hklen hlt)

/-- C3 witness: the hypotheses and conclusion of `C3_best_is_first_argmax`
hold at the concrete input `[1,2,2,3]`, `[0,1,1,1]`. -/
theorem C3_best_is_first_argmax_witness :
    (([1, 2, 2, 3] : List ℚ).length = ([0, 1, 1, 1] : List ℚ).length) ∧
    (∃ a ∈ ([1, 2, 2, 3] : List ℚ), ∃ b ∈ ([1, 2, 2, 3] : List ℚ), a ≠ b) ∧
    (argmaxFirst (find_best_split [1, 2, 2, 3] [0, 1, 1, 1]).ginis <
      (find_best_split [1, 2, 2, 3] [0, 1, 1, 1]).ginis.length ∧
    (find_best_split [1, 2, 2, 3] [0, 1, 1, 1]).gini_best =
      (find_best_split [1, 2, 2, 3] [0, 1, 1, 1]).ginis.getD
        (argmaxFirst (find_best_split [1, 2, 2, 3] [0, 1, 1, 1]).ginis) 0 ∧
    (find_best_split [1, 2, 2, 3] [0, 1, 1, 1]).threshold_best =
      (find_best_split [1, 2, 2, 3] [0, 1, 1, 1]).thresholds.getD
        (argmaxFirst (find_best_split [1, 2, 2, 3] [0, 1, 1, 1]).ginis) 0 ∧
    (∀ k, k < (find_best_split [1, 2, 2, 3] [0, 1, 1, 1]).ginis.length →
      (find_best_split [1, 2, 2, 3] [0, 1, 1, 1]).ginis.getD k 0 ≤
        (find_best_split [1, 2, 2, 3] [0, 1, 1, 1]).gini_best) ∧
    (∀ k, k < argmaxFirst (find_best_split [1, 2, 2, 3] [0, 1, 1, 1]).ginis →
      (find_best_split [1, 2, 2, 3] [0, 1, 1, 1]).ginis.getD k 0 <
        (find_best_split [1, 2, 2, 3] [0, 1, 1, 1]).gini_best) ∧
    (∀ k, k < (find_best_split [1, 2, 2, 3] [0, 1, 1, 1]).ginis.length →
      (find_best_split [1, 2, 2, 3] [0, 1, 1, 1]).ginis.getD k 0 =
        (find_best_split [1, 2, 2, 3] [0, 1, 1, 1]).gini_best →
      (find_best_split [1, 2, 2, 3] [0, 1, 1, 1]).threshold_best ≤
        (find_best_split [1, 2, 2, 3] [0, 1, 1, 1]).thresholds.getD k 0)) :=
  ⟨by decide, by decide,
    C3_best_is_first_argmax [1, 2, 2, 3] [0, 1, 1, 1] (by decide) (by decide)⟩

/-! ### Lemmas about `majorityLabel` -/

theorem majorityLabel_eq_getD (l : List ℚ) :
    majorityLabel l = (distinctFirst l).getD
      (argmaxFirst ((distinctFirst l).map (fun k => (l.count k : ℚ)))) 0 := rfl

theorem argmax_counts_lt (l : List ℚ) (h : l ≠ []) :
    argmaxFirst ((distinctFirst l).map (fun k => (l.count k : ℚ))) <
      (distinctFirst l).length := by
  have hkeys : distinctFirst l ≠ [] := distinctFirst_ne_nil l h
  have hmap : (distinctFirst l).map (fun k => (l.count k : ℚ)) ≠ [] := by
    simpa using hkeys
  have hj := argmaxFirst_lt_length _ hmap
  rwa [List.length_map] at hj

theorem majorityLabel_mem (l : List ℚ) (h : l ≠ []) : majorityLabel l ∈ l := by
  rw [majorityLabel_eq_getD]
  exact (mem_distinctFirst _ l).mp (getD_mem _ _ 0 (argmax_counts_lt l h))

theorem indexOf_getD_of_nodup (l : List ℚ) (hnodup : l.Nodup) (j : ℕ) (hj : j < l.length) :
    l.indexOf (l.getD j 0) = j := by
  rw [List.getD_eq_getElem _ 0 hj]
  have hg := List.get_indexOf hnodup ⟨j, hj⟩
  simpa using hg

theorem majorityLabel_count_ge (l : List ℚ) (h : l ≠ []) (c : ℚ) (hc : c ∈ l) :
    l.count c ≤ l.count (majorityLabel l) := by
  have hck : c ∈ distinctFirst l := (mem_distinctFirst c l).mpr hc
  have hidx : (distinctFirst l).indexOf c < (distinctFirst l).length :=
    List.indexOf_lt_length.mpr hck
  have hA : ((distinctFirst l).map (fun k => (l.count k : ℚ))).getD
      ((distinctFirst l).indexOf c) 0 = (l.count c : ℚ) := by
    rw [getD_map_of_lt (fun k => (l.count k : ℚ)) _ _ 0 0 hidx]
    congr 1
    rw [List.getD_eq_getElem _ 0 hidx]
    have := List.indexOf_get hidx
    simpa using this
  have hB : ((distinctFirst l).map (fun k => (l.count k : ℚ))).getD
      (argmaxFirst ((distinctFirst l).map (fun k => (l.count k : ℚ)))) 0 =
      (l.count (majorityLabel l) : ℚ) := by
    rw [getD_map_of_lt (fun k => (l.count k : ℚ)) _ _ 0 0 (argmax_counts_lt l h)]
    rw [majorityLabel_eq_getD]
  have hle := getD_le_argmaxFirst ((distinctFirst l).map (fun k => (l.count k : ℚ)))
    ((distinctFirst l).indexOf c) 0 (by simpa using hidx)
  rw [hA, hB] at hle
  exact_mod_cast hle

theorem majorityLabel_first_tie (l : List ℚ) (h : l ≠ []) (c : ℚ) (hc : c ∈ l)
    (heq : l.count c = l.count (majorityLabel l)) :
    (distinctFirst l).indexOf (majorityLabel l) ≤ (distinctFirst l).indexOf c := by
  have hnodup := nodup_distinctFirst l
  have harg : (distinctFirst l).indexOf (majorityLabel l) =
      argmaxFirst ((distinctFirst l).map (fun k => (l.count k : ℚ))) := by
    rw [majorityLabel_eq_getD]
    exact indexOf_getD_of_nodup _ hnodup _ (argmax_counts_lt l h)
  rw [harg]
  by_contra hlt
  push_neg at hlt
  have hck : c ∈ distinctFirst l := (mem_distinctFirst c l).mpr hc
  have hidx : (distinctFirst l).indexOf c < (distinctFirst l).length :=
    List.indexOf_lt_length.mpr hck
  have hA : ((distinctFirst l).map (fun k => (l.count k : ℚ))).getD
      ((distinctFirst l).indexOf c) 0 = (l.count c : ℚ) := by
    rw [getD_map_of_lt (fun k => (l.count k : ℚ)) _ _ 0 0 hidx]
    congr 1
    rw [List.getD_eq_getElem _ 0 hidx]
    have := List.indexOf_get hidx
    simpa using this
  have hB : ((distinctFirst l).map (fun k => (l.count k : ℚ))).getD
      (argmaxFirst ((distinctFirst l).map (fun k => (l.count k : ℚ)))) 0 =
      (l.count (majorityLabel l) : ℚ) := by
    rw [getD_map_of_lt (fun k => (l.count k : ℚ)) _ _ 0 0 (argmax_counts_lt l h)]
    rw [majorityLabel_eq_getD]
  have hstrict := getD_lt_argmaxFirst_of_lt
    ((distinctFirst l).map (fun k => (l.count k : ℚ))) ((distinctFirst l).indexOf c) 0 hlt
  rw [hA, hB] at hstrict
  have : l.count c < l.count (majorityLabel l) := by exact_mod_cast hstrict
  omega

/-! ### Claims C5 and C6 about the stopping rules -/

/-- C6: when the label vector is entirely 0 or entirely 1, fitting the node
produces a single terminal carrying that label, and `find_best_split` is
never invoked (the call log of the whole subtree is empty). -/
theorem C6_pure_label_stop (mss : ℕ) (ftypes : List FeatureType) (fuel : ℕ)
    (X : List (List ℚ)) (y : List ℚ) (c : ℚ) (hne : y ≠ [])
    (hall : ∀ v ∈ y, v = c) (hc : c = 0 ∨ c = 1) :
    fit_node mss ftypes (fuel + 1) X y = some (Node.terminal c, []) := by
  have hhead : y.headD 0 = c := by
    cases y with
    | nil => exact absurd rfl hne
    | cons a ys => simpa using hall a (by simp)
  have hcond : y.all (fun v => decide (v = y.headD 0)) = true := by
    simp only [List.all_eq_true, decide_eq_true_eq]
    intro v hv
    rw [hhead]
    exact hall v hv
  simp only [fit_node]
  rw [if_pos hcond, hhead]

/-- C6 witness: instantiation at `X = [[5],[7]]`, `y = [1,1]`. -/
theorem C6_pure_label_stop_witness :
    (([1, 1] : List ℚ) ≠ []) ∧ (∀ v ∈ ([1, 1] : List ℚ), v = 1) ∧
    (((1 : ℚ) = 0) ∨ ((1 : ℚ) = 1)) ∧
    fit_node 2 [FeatureType.real] 4 [[5], [7]] [1, 1] = some (Node.terminal 1, []) :=
  ⟨by decide, by decide, by decide,
    C6_pure_label_stop 2 [FeatureType.real] 3 [[5], [7]] [1, 1] 1 (by decide) (by decide)
      (by decide)⟩

/-- C5: when the labels are not all identical and the sample count is at most
`min_samples_split`, fitting the node performs no split search and returns a
terminal labelled with the majority label (frequency ties resolved in favour
of the first-encountered label). -/
theorem C5_size_stop (mss : ℕ) (ftypes : List FeatureType) (fuel : ℕ)
    (X : List (List ℚ)) (y : List ℚ)
    (hnotpure : ¬ ∀ v ∈ y, v = y.headD 0)
    (hsize : y.length ≤ mss) :
    fit_node mss ftypes (fuel + 1) X y = some (Node.terminal (majorityLabel y), []) ∧
    majorityLabel y ∈ y ∧
    (∀ c, y.count c ≤ y.count (majorityLabel y)) ∧
    (∀ c ∈ y, y.count c = y.count (majorityLabel y) →
      (distinctFirst y).indexOf (majorityLabel y) ≤ (distinctFirst y).indexOf c) := by
  have hne : y ≠ [] := by
    rintro rfl
    exact hnotpure (by simp)
  have hcond : ¬ (y.all (fun v => decide (v = y.headD 0)) = true) := by
    simp only [List.all_eq_true, decide_eq_true_eq]
    exact hnotpure
  refine ⟨?_, majorityLabel_mem y hne, ?_, ?_⟩
  · simp only [fit_node]
    rw [if_neg hcond, if_pos hsize]
  · intro c
    by_cases hc : c ∈ y
    · exact majorityLabel_count_ge y hne c hc
    · rw [List.count_eq_zero_of_not_mem hc]
      exact Nat.zero_le _
  · intro c hc hcnt
    exact majorityLabel_first_tie y hne c hc hcnt

/-- C5 witness: instantiation at `X = [[0],[1],[2]]`, `y = [0,1,0]`,
`min_samples_split = 3`. -/
theorem C5_size_stop_witness :
    (¬ ∀ v ∈ ([0, 1, 0] : List ℚ), v = ([0, 1, 0] : List ℚ).headD 0) ∧
    (([0, 1, 0] : List ℚ).length ≤ 3) ∧
    (fit_node 3 [FeatureType.real] 4 [[0], [1], [2]] [0, 1, 0] =
      some (Node.terminal (majorityLabel [0, 1, 0]), []) ∧
    majorityLabel [0, 1, 0] ∈ ([0, 1, 0] : List ℚ) ∧
    (∀ c, ([0, 1, 0] : List ℚ).count c ≤
      ([0, 1, 0] : List ℚ).count (majorityLabel [0, 1, 0])) ∧
    (∀ c ∈ ([0, 1, 0] : List ℚ),
      ([0, 1, 0] : List ℚ).count c = ([0, 1, 0] : List ℚ).count (majorityLabel [0, 1, 0]) →
      (distinctFirst ([0, 1, 0] : List ℚ)).indexOf (majorityLabel [0, 1, 0]) ≤
        (distinctFirst ([0, 1, 0] : List ℚ)).indexOf c)) :=
  ⟨by decide, by decide,
    C5_size_stop 3 [FeatureType.real] 3 [[0], [1], [2]] [0, 1, 0] (by decide) (by decide)⟩

/-! ### Claim C4: `find_best_split` is only ever called on non-constant vectors -/

theorem scanStep_calls_invariant (ftypes : List FeatureType) (X : List (List ℚ)) (y : List ℚ)
    (fs : List ℕ) (acc : Option ScanBest × List (List ℚ))
    (hacc : ∀ fv ∈ acc.2, ∃ a ∈ fv, ∃ b ∈ fv, a ≠ b) :
    ∀ fv ∈ (fs.foldl (scanStep ftypes X y) acc).2, ∃ a ∈ fv, ∃ b ∈ fv, a ≠ b := by
  induction fs generalizing acc with
  | nil => simpa using hacc
  | cons f fs ih =>
    rw [List.foldl_cons]
    apply ih
    simp only [scanStep]
    by_cases hguard : (encodeFeature ftypes X y f).all
        (fun v => decide (v = (encodeFeature ftypes X y f).headD 0)) = true
    · rw [if_pos hguard]
      exact hacc
    · rw [if_neg hguard]
      intro fv hfv
      rcases List.mem_append.mp hfv with hmem | hmem
      · exact hacc fv hmem
      · have hfveq : fv = encodeFeature ftypes X y f := by simpa using hmem
        subst hfveq
        exact not_all_eq_head _ 0 hguard

theorem scanFeatures_calls_nonconstant (ftypes : List FeatureType) (X : List (List ℚ))
    (y : List ℚ) :
    ∀ fv ∈ (scanFeatures ftypes X y).2, ∃ a ∈ fv, ∃ b ∈ fv, a ≠ b := by
  rw [scanFeatures]
  exact scanStep_calls_invariant ftypes X y _ (none, []) (by simp)

/-- C4: along any successful run of the recursive node fitting, every
feature vector passed to `find_best_split` (every entry of the call log) is
non-constant: the constant-vector guard is checked before each call. -/
theorem C4_no_constant_call (mss : ℕ) (ftypes : List FeatureType) :
    ∀ (fuel : ℕ) (X : List (List ℚ)) (y : List ℚ) (node : Node) (calls : List (List ℚ)),
      fit_node mss ftypes fuel X y = some (node, calls) →
      ∀ fv ∈ calls, ∃ a ∈ fv, ∃ b ∈ fv, a ≠ b := by
  intro fuel
  induction fuel with
  | zero =>
    intro X y node calls h
    simp [fit_node] at h
  | succ fuel ih =>
    intro X y node calls h
    simp only [fit_node] at h
    by_cases h1 : y.all (fun v => decide (v = y.headD 0)) = true
    · rw [if_pos h1] at h
      injection h with h2
      injection h2 with _ h3
      subst h3
      simp
    · rw [if_neg h1] at h
      by_cases h2 : y.length ≤ mss
      · rw [if_pos h2] at h
        injection h with h3
        injection h3 with _ h4
        subst h4
        simp
      · rw [if_neg h2] at h
        rcases hscan : scanFeatures ftypes X y with ⟨ob, calls₀⟩
        rw [hscan] at h
        have hscan2 : ∀ fv ∈ calls₀, ∃ a ∈ fv, ∃ b ∈ fv, a ≠ b := by
          have := scanFeatures_calls_nonconstant ftypes X y
          rw [hscan] at this
          exact this
        cases ob with
        | none =>
          injection h with h3
          injection h3 with _ h4
          subst h4
          exact hscan2
        | some b =>
          simp only at h
          rcases hfl : fit_node mss ftypes fuel (maskFilter X b.split)
              (maskFilter y b.split) with _ | pl
          · rw [hfl] at h
            simp at h
          · rcases hfr : fit_node mss ftypes fuel
                (maskFilter X (b.split.map (fun x => !x)))
                (maskFilter y (b.split.map (fun x => !x))) with _ | pr
            · rw [hfl, hfr] at h
              rcases pl with ⟨lc, cl⟩
              simp at h
            · rcases pl with ⟨lc, cl⟩
              rcases pr with ⟨rc, cr⟩
              rw [hfl, hfr] at h
              injection h with h3
              injection h3 with _ h4
              subst h4
              intro fv hfv
              rcases List.mem_append.mp hfv with hm | hm
              · rcases List.mem_append.mp hm with hm2 | hm2
                · exact hscan2 fv hm2
                · exact ih _ _ _ _ hfl fv hm2
              · exact ih _ _ _ _ hfr fv hm

/-- C4 witness: a successful two-sample fit whose call log contains exactly
the one (non-constant) encoded feature vector. -/
theorem C4_no_constant_call_witness :
    (fit_node 1 [FeatureType.real] 3 [[0], [1]] [0, 1] =
      some (Node.nonterminal 0 (SplitPayload.threshold (1 / 2))
        (Node.terminal 0) (Node.terminal 1), [[0, 1]])) ∧
    (∀ fv ∈ ([[0, 1]] : List (List ℚ)), ∃ a ∈ fv, ∃ b ∈ fv, a ≠ b) :=
  ⟨by decide,
    C4_no_constant_call 1 [FeatureType.real] 3 [[0], [1]] [0, 1]
      (Node.nonterminal 0 (SplitPayload.threshold (1 / 2)) (Node.terminal 0) (Node.terminal 1))
      [[0, 1]] (by decide)⟩

/-! ### Claim C7: the categorical split as a rank-prefix of the rate ordering -/

theorem sortedCategories_perm (col ys : List ℚ) :
    (sortedCategories col ys).Perm (distinctFirst col) :=
  List.perm_insertionSort _ _

theorem nodup_sortedCategories (col ys : List ℚ) : (sortedCategories col ys).Nodup :=
  (sortedCategories_perm col ys).nodup_iff.mpr (nodup_distinctFirst col)

theorem sortedCategories_sorted (col ys : List ℚ) :
    List.Pairwise (fun a b => categoryRatio col ys a ≤ categoryRatio col ys b)
      (sortedCategories col ys) :=
  @List.sorted_insertionSort ℚ (fun a b => categoryRatio col ys a ≤ categoryRatio col ys b)
    (fun a b => inferInstanceAs (Decidable (categoryRatio col ys a ≤ categoryRatio col ys b)))
    ⟨fun a b => le_total _ _⟩ ⟨fun _ _ _ hab hbc => le_trans hab hbc⟩ (distinctFirst col)

theorem mem_retained_aux (θ : ℚ) (x : ℚ) :
    ∀ (cats : List ℚ) (k : ℕ), x ∈ cats → cats.Nodup →
      (x ∈ ((cats.zip (List.range' k cats.length)).filter
          (fun p => decide ((p.2 : ℚ) < θ))).map Prod.fst ↔
        ((k + cats.indexOf x : ℕ) : ℚ) < θ) := by
  intro cats
  induction cats with
  | nil =>
    intro k hx
    simp at hx
  | cons c cs ih =>
    intro k hx hnd
    rw [List.length_cons, List.range'_succ, List.zip_cons_cons, List.filter_cons]
    rcases List.nodup_cons.mp hnd with ⟨hcn, hnd'⟩
    by_cases hxc : x = c
    · subst hxc
      rw [List.indexOf_cons_self]
      constructor
      · intro hmem
        by_cases hk : ((k : ℚ) < θ)
        · simpa using hk
        · rw [if_neg (by simpa using hk)] at hmem
          exfalso
          apply hcn
          obtain ⟨p, hp, hpe⟩ := List.mem_map.mp hmem
          have hpz := (List.mem_filter.mp hp).1
          have hm : p.1 ∈ cs := (List.of_mem_zip (by rwa [← Prod.mk.eta (p := p)] at hpz)).1
          rwa [hpe] at hm
      · intro hlt
        have hk : (k : ℚ) < θ := by simpa using hlt
        rw [if_pos (by simpa using hk)]
        simp
    · have hxcs : x ∈ cs := by
        rcases List.mem_cons.mp hx with h | h
        · exact absurd h hxc
        · exact h
      have hne : c ≠ x := fun h => hxc h.symm
      rw [List.indexOf_cons_ne _ hne]
      have htail := ih (k + 1) hxcs hnd'
      have hnum : (k + (cs.indexOf x).succ : ℕ) = ((k + 1) + cs.indexOf x : ℕ) := by omega
      by_cases hk : ((k : ℚ) < θ)
      · rw [if_pos (by simpa using hk), List.map_cons]
        simp only [List.mem_cons]
        constructor
        · rintro (h | h)
          · exact absurd h hxc
          · rw [hnum]
            exact htail.mp h
        · intro h
          right
          exact htail.mpr (by rwa [← hnum])
      · rw [if_neg (by simpa using hk)]
        rw [hnum]
        exact htail

theorem retained_iff_rank_lt (cats : List ℚ) (θ : ℚ) (x : ℚ) (hx : x ∈ cats)
    (hnd : cats.Nodup) :
    x ∈ retainedCategories cats θ ↔ ((cats.indexOf x : ℕ) : ℚ) < θ := by
  have h := mem_retained_aux θ x cats 0 hx hnd
  rw [retainedCategories, List.range_eq_range']
  simpa using h

theorem retained_subset (cats : List ℚ) (θ : ℚ) (x : ℚ)
    (hx : x ∈ retainedCategories cats θ) : x ∈ cats := by
  obtain ⟨p, hp, hpe⟩ := List.mem_map.mp hx
  have hpz := (List.mem_filter.mp hp).1
  have hm : p.1 ∈ cats := (List.of_mem_zip (by rwa [← Prod.mk.eta (p := p)] at hpz)).1
  rwa [hpe] at hm

/-- C7 counterexample: on `X = [[10],[10],[20],[20]]`, `y = [0,1,0,1]` with one
categorical feature, the fitted root retains exactly the category `10`, yet
the categories `10` and `20` have the same empirical positive rate `1/2`, so
no rate cutoff reproduces the retained set: the claim that the retained set
equals `{cat | rate cat < c}` for some cutoff `c` is false on this input. -/
theorem C7_counterexample :
    ((fit_node 2 [FeatureType.categorical] 5 [[10], [10], [20], [20]] [0, 1, 0, 1]).map
        Prod.fst =
      some (Node.nonterminal 0 (SplitPayload.categories [10])
        (Node.terminal 0) (Node.terminal 0))) ∧
    categoryRatio [10, 10, 20, 20] [0, 1, 0, 1] 10 = 1 / 2 ∧
    categoryRatio [10, 10, 20, 20] [0, 1, 0, 1] 20 = 1 / 2 ∧
    ¬ ∃ c : ℚ, (((10 : ℚ) ∈ ([10] : List ℚ)) ↔
        categoryRatio [10, 10, 20, 20] [0, 1, 0, 1] 10 < c) ∧
      (((20 : ℚ) ∈ ([10] : List ℚ)) ↔
        categoryRatio [10, 10, 20, 20] [0, 1, 0, 1] 20 < c) := by
  refine ⟨by decide, by decide, by decide, ?_⟩
  rintro ⟨c, h10, h20⟩
  have r10 : categoryRatio [10, 10, 20, 20] [0, 1, 0, 1] 10 = 1 / 2 := by decide
  have r20 : categoryRatio [10, 10, 20, 20] [0, 1, 0, 1] 20 = 1 / 2 := by decide
  rw [r10] at h10
  rw [r20] at h20
  have hlt : (1 : ℚ) / 2 < c := h10.mp (by simp)
  have hnotin : ¬ ((20 : ℚ) ∈ ([10] : List ℚ)) := by decide
  exact hnotin (h20.mpr hlt)

/-- C7 amended: thresholding the rank-encoded categorical feature vector
partitions the samples exactly by membership of the raw category in the
retained set (the categories whose rank is below the threshold), and every
retained category's empirical positive rate is at most every dropped
category's rate.  (The original claim — that the retained set equals the set
of categories whose rate lies strictly below some single rate cutoff — fails
when tied rates straddle the threshold, as `C7_counterexample` shows.) -/
theorem C7_rank_prefix_partition (ftypes : List FeatureType) (X : List (List ℚ))
    (y : List ℚ) (f : ℕ) (θ : ℚ)
    (hcat : ftypes.getD f FeatureType.real = FeatureType.categorical) :
    splitPayload ftypes X y f θ =
      SplitPayload.categories (retainedCategories (sortedCategories (column X f) y) θ) ∧
    (∀ i, i < X.length →
      ((encodeFeature ftypes X y f).getD i 0 < θ ↔
        (column X f).getD i 0 ∈ retainedCategories (sortedCategories (column X f) y) θ)) ∧
    (∀ a ∈ retainedCategories (sortedCategories (column X f) y) θ,
      ∀ b ∈ sortedCategories (column X f) y,
        b ∉ retainedCategories (sortedCategories (column X f) y) θ →
          categoryRatio (column X f) y a ≤ categoryRatio (column X f) y b) := by
  have hnd := nodup_sortedCategories (column X f) y
  refine ⟨?_, ?_, ?_⟩
  · rw [splitPayload, hcat]
  · intro i hi
    have hicol : i < (column X f).length := by
      rw [column, List.length_map]
      exact hi
    have henc : (encodeFeature ftypes X y f).getD i 0 =
        ((sortedCategories (column X f) y).indexOf ((column X f).getD i 0) : ℚ) := by
      rw [encodeFeature, hcat]
      have := getD_map_of_lt
        (fun x => ((sortedCategories (column X f) y).indexOf x : ℚ))
        (column X f) i 0 0 hicol
      simpa using this
    rw [henc]
    have hmem : (column X f).getD i 0 ∈ column X f := getD_mem _ i 0 hicol
    have hxc : (column X f).getD i 0 ∈ sortedCategories (column X f) y :=
      (sortedCategories_perm _ _).mem_iff.mpr ((mem_distinctFirst _ _).mpr hmem)
    exact (retained_iff_rank_lt _ θ _ hxc hnd).symm
  · intro a ha b hb hbn
    have hacats : a ∈ sortedCategories (column X f) y := retained_subset _ θ a ha
    have hia : ((sortedCategories (column X f) y).indexOf a : ℚ) < θ :=
      (retained_iff_rank_lt _ θ a hacats hnd).mp ha
    have hib : ¬ (((sortedCategories (column X f) y).indexOf b : ℚ) < θ) := fun hlt =>
      hbn ((retained_iff_rank_lt _ θ b hb hnd).mpr hlt)
    have hidx : (sortedCategories (column X f) y).indexOf a <
        (sortedCategories (column X f) y).indexOf b := by
      have hq : ((sortedCategories (column X f) y).indexOf a : ℚ) <
          ((sortedCategories (column X f) y).indexOf b : ℚ) :=
        lt_of_lt_of_le hia (not_lt.mp hib)
      exact_mod_cast hq
    have halt : (sortedCategories (column X f) y).indexOf a <
        (sortedCategories (column X f) y).length := List.indexOf_lt_length.mpr hacats
    have hblt : (sortedCategories (column X f) y).indexOf b <
        (sortedCategories (column X f) y).length := List.indexOf_lt_length.mpr hb
    have hpw := List.pairwise_iff_getElem.mp (sortedCategories_sorted (column X f) y)
      _ _ halt hblt hidx
    rwa [List.getElem_indexOf halt, List.getElem_indexOf hblt] at hpw

/-- C7 amended witness: instantiation at the counterexample dataset with
threshold `1/2`. -/
theorem C7_rank_prefix_partition_witness :
    (([FeatureType.categorical] : List FeatureType).getD 0 FeatureType.real =
      FeatureType.categorical) ∧
    (splitPayload [FeatureType.categorical] [[10], [10], [20], [20]] [0, 1, 0, 1] 0 (1 / 2) =
      SplitPayload.categories (retainedCategories
        (sortedCategories (column [[10], [10], [20], [20]] 0) [0, 1, 0, 1]) (1 / 2)) ∧
    (∀ i, i < ([[10], [10], [20], [20]] : List (List ℚ)).length →
      ((encodeFeature [FeatureType.categorical] [[10], [10], [20], [20]] [0, 1, 0, 1] 0).getD
          i 0 < 1 / 2 ↔
        (column [[10], [10], [20], [20]] 0).getD i 0 ∈ retainedCategories
          (sortedCategories (column [[10], [10], [20], [20]] 0) [0, 1, 0, 1]) (1 / 2))) ∧
    (∀ a ∈ retainedCategories
        (sortedCategories (column [[10], [10], [20], [20]] 0) [0, 1, 0, 1]) (1 / 2),
      ∀ b ∈ sortedCategories (column [[10], [10], [20], [20]] 0) [0, 1, 0, 1],
        b ∉ retainedCategories
          (sortedCategories (column [[10], [10], [20], [20]] 0) [0, 1, 0, 1]) (1 / 2) →
          categoryRatio (column [[10], [10], [20], [20]] 0) [0, 1, 0, 1] a ≤
            categoryRatio (column [[10], [10], [20], [20]] 0) [0, 1, 0, 1] b)) :=
  ⟨by decide,
    C7_rank_prefix_partition [FeatureType.categorical] [[10], [10], [20], [20]] [0, 1, 0, 1]
      0 (1 / 2) (by decide)⟩

/-! ### Claim C9: `max_depth` and `min_samples_leaf` are inert -/

/-- C9: two models with the same `feature_types` and `min_samples_split` but
arbitrary `max_depth` and `min_samples_leaf` fit identical trees and produce
identical predictions on every input: neither hyperparameter is ever read by
the fitting or prediction code. -/
theorem C9_max_depth_min_samples_leaf_inert (ft : List FeatureType) (mss : ℕ)
    (md1 md2 msl1 msl2 : Option ℕ) (X Xt : List (List ℚ)) (y : List ℚ) (root : Node) :
    (DecisionTree.mk ft md1 mss msl1).fitTree X y =
      (DecisionTree.mk ft md2 mss msl2).fitTree X y ∧
    (DecisionTree.mk ft md1 mss msl1).predictList root Xt =
      (DecisionTree.mk ft md2 mss msl2).predictList root Xt ∧
    ((DecisionTree.mk ft md1 mss msl1).fitTree X y).map
        (fun r => (DecisionTree.mk ft md1 mss msl1).predictList r Xt) =
      ((DecisionTree.mk ft md2 mss msl2).fitTree X y).map
        (fun r => (DecisionTree.mk ft md2 mss msl2).predictList r Xt) :=
  ⟨rfl, rfl, rfl⟩

/-! ### Claim C10: the chosen split is proper and the recursion terminates -/

theorem length_encodeFeature (ftypes : List FeatureType) (X : List (List ℚ)) (y : List ℚ)
    (f : ℕ) : (encodeFeature ftypes X y f).length = X.length := by
  rw [encodeFeature]
  split
  · rw [column, List.length_map]
  · rw [List.length_map, column, List.length_map]

theorem count_true_map_not (m : List Bool) : (m.map (fun x => !x)).count true = m.count false := by
  induction m with
  | nil => simp
  | cons a m ih => cases a <;> simp [List.count_cons, ih]

theorem count_false_add_count_true (m : List Bool) : m.count false + m.count true = m.length := by
  induction m with
  | nil => simp
  | cons a m ih => cases a <;> simp [List.count_cons] <;> omega

theorem scanBest_new_split_prop (ftypes : List FeatureType) (X : List (List ℚ)) (y : List ℚ)
    (f : ℕ) (hlen : X.length = y.length)
    (hguard : ¬ ((encodeFeature ftypes X y f).all
      (fun v => decide (v = (encodeFeature ftypes X y f).headD 0)) = true)) :
    true ∈ (encodeFeature ftypes X y f).map
        (fun v => decide (v < (find_best_split (encodeFeature ftypes X y f) y).threshold_best)) ∧
    false ∈ (encodeFeature ftypes X y f).map
        (fun v => decide (v < (find_best_split (encodeFeature ftypes X y f) y).threshold_best)) ∧
    ((encodeFeature ftypes X y f).map
        (fun v => decide (v < (find_best_split (encodeFeature ftypes X y f) y).threshold_best))).length
      = y.length := by
  have hnc := not_all_eq_head _ 0 hguard
  have hflen : (encodeFeature ftypes X y f).length = y.length := by
    rw [length_encodeFeature, hlen]
  obtain ⟨⟨a, ha, halt⟩, ⟨b, hb, hbge⟩⟩ :=
    threshold_best_between (encodeFeature ftypes X y f) y hflen hnc
  refine ⟨?_, ?_, by rw [List.length_map, hflen]⟩
  · exact List.mem_map.mpr ⟨a, ha, by simpa using halt⟩
  · exact List.mem_map.mpr ⟨b, hb, by simpa using hbge⟩

theorem scanStep_best_invariant (ftypes : List FeatureType) (X : List (List ℚ)) (y : List ℚ)
    (hlen : X.length = y.length) (fs : List ℕ) (acc : Option ScanBest × List (List ℚ))
    (hacc : ∀ b, acc.1 = some b →
      true ∈ b.split ∧ false ∈ b.split ∧ b.split.length = y.length) :
    ∀ b, (fs.foldl (scanStep ftypes X y) acc).1 = some b →
      true ∈ b.split ∧ false ∈ b.split ∧ b.split.length = y.length := by
  induction fs generalizing acc with
  | nil => simpa using hacc
  | cons f fs ih =>
    rw [List.foldl_cons]
    apply ih
    intro b hb
    simp only [scanStep] at hb
    by_cases hguard : (encodeFeature ftypes X y f).all
        (fun v => decide (v = (encodeFeature ftypes X y f).headD 0)) = true
    · rw [if_pos hguard] at hb
      exact hacc b hb
    · rw [if_neg hguard] at hb
      simp only at hb
      rcases hacc2 : acc.1 with _ | old
      · rw [hacc2] at hb
        simp only [Option.some.injEq] at hb
        subst hb
        exact scanBest_new_split_prop ftypes X y f hlen hguard
      · rw [hacc2] at hb
        split at hb
        · simp only [Option.some.injEq] at hb
          subst hb
          exact scanBest_new_split_prop ftypes X y f hlen hguard
        · rename_i old2 heq
          injection heq with heq2
          subst heq2
          split at hb
          · simp only [Option.some.injEq] at hb
            subst hb
            exact scanBest_new_split_prop ftypes X y f hlen hguard
          · simp only [Option.some.injEq] at hb
            subst hb
            exact hacc old hacc2

theorem scanFeatures_some_split (ftypes : List FeatureType) (X : List (List ℚ)) (y : List ℚ)
    (hlen : X.length = y.length) (b : ScanBest) (calls : List (List ℚ))
    (h : scanFeatures ftypes X y = (some b, calls)) :
    true ∈ b.split ∧ false ∈ b.split ∧ b.split.length = y.length := by
  apply scanStep_best_invariant ftypes X y hlen _ (none, []) (by simp)
  rw [scanFeatures] at h
  rw [h]

theorem fit_node_total (mss : ℕ) (ftypes : List FeatureType) :
    ∀ (fuel : ℕ) (X : List (List ℚ)) (y : List ℚ), X.length = y.length → y ≠ [] →
      y.length + 1 ≤ fuel → ∃ r, fit_node mss ftypes fuel X y = some r := by
  intro fuel
  induction fuel with
  | zero =>
    intro X y _ _ hf
    omega
  | succ fuel ih =>
    intro X y hlen hne hf
    by_cases h1 : y.all (fun v => decide (v = y.headD 0)) = true
    · exact ⟨_, by simp only [fit_node]; rw [if_pos h1]⟩
    · by_cases h2 : y.length ≤ mss
      · exact ⟨_, by simp only [fit_node]; rw [if_neg h1, if_pos h2]⟩
      · rcases hscan : scanFeatures ftypes X y with ⟨ob, calls₀⟩
        cases ob with
        | none =>
          refine ⟨(Node.terminal (majorityLabel y), calls₀), ?_⟩
          simp only [fit_node]
          rw [if_neg h1, if_neg h2, hscan]
        | some b =>
          obtain ⟨htrue, hfalse, hblen⟩ :=
            scanFeatures_some_split ftypes X y hlen b calls₀ hscan
          have hXblen : X.length = b.split.length := by rw [hlen, hblen]
          have hyblen : y.length = b.split.length := hblen.symm
          have hXs : (maskFilter X b.split).length = b.split.count true :=
            length_maskFilter X b.split hXblen
          have hys : (maskFilter y b.split).length = b.split.count true :=
            length_maskFilter y b.split hyblen
          have hcountpos : 0 < b.split.count true := List.count_pos_iff.mpr htrue
          have hcountlt : b.split.count true < b.split.length := by
            by_contra hge
            push_neg at hge
            have heq : b.split.count true = b.split.length :=
              le_antisymm (List.count_le_length _ _) hge
            have hall := List.count_eq_length.mp heq
            have hcontra := hall false hfalse
            simp at hcontra
          have hXnlen : X.length = (b.split.map (fun x => !x)).length := by
            rw [List.length_map, hlen, hblen]
          have hynlen : y.length = (b.split.map (fun x => !x)).length := by
            rw [List.length_map, hblen]
          have hXns : (maskFilter X (b.split.map (fun x => !x))).length =
              b.split.count false := by
            rw [length_maskFilter X _ hXnlen, count_true_map_not]
          have hyns : (maskFilter y (b.split.map (fun x => !x))).length =
              b.split.count false := by
            rw [length_maskFilter y _ hynlen, count_true_map_not]
          have hsum := count_false_add_count_true b.split
          have hL := ih (maskFilter X b.split) (maskFilter y b.split)
            (by rw [hXs, hys]) (by rw [← List.length_pos, hys]; exact hcountpos)
            (by rw [hys]; omega)
          have hR := ih (maskFilter X (b.split.map (fun x => !x)))
            (maskFilter y (b.split.map (fun x => !x)))
            (by rw [hXns, hyns]) (by rw [← List.length_pos, hyns]; omega)
            (by rw [hyns]; omega)
          obtain ⟨⟨lnode, lcalls⟩, hLe⟩ := hL
          obtain ⟨⟨rnode, rcalls⟩, hRe⟩ := hR
          refine ⟨(Node.nonterminal b.feature b.payload lnode rnode,
            calls₀ ++ lcalls ++ rcalls), ?_⟩
          simp only [fit_node]
          rw [if_neg h1, if_neg h2, hscan]
          simp only
          rw [hLe, hRe]

/-- C10: whenever the feature scan selects a best split, its boolean mask
selects at least one sample and strictly fewer than all samples (every
candidate threshold lies strictly between two feature values), so both
recursive calls receive non-empty strictly smaller subsets; consequently the
recursion terminates: with fuel `|y| + 1` the fuel is never exhausted and
node fitting succeeds. -/
theorem C10_split_proper_and_total (mss : ℕ) (ftypes : List FeatureType)
    (X : List (List ℚ)) (y : List ℚ) (hlen : X.length = y.length) (hne : y ≠ []) :
    (∀ b calls, scanFeatures ftypes X y = (some b, calls) →
      true ∈ b.split ∧ false ∈ b.split ∧ b.split.length = y.length) ∧
    (∀ fuel, y.length + 1 ≤ fuel → ∃ r, fit_node mss ftypes fuel X y = some r) := by
  constructor
  · intro b calls h
    exact scanFeatures_some_split ftypes X y hlen b calls h
  · intro fuel hf
    exact fit_node_total mss ftypes fuel X y hlen hne hf

/-! ### Claim C8: round trip on the training set when every leaf is pure -/

/-- Consistency of a recorded best split: its payload and boolean mask both
come from the same feature and the same threshold. -/
def ScanOk (ftypes : List FeatureType) (X : List (List ℚ)) (y : List ℚ)
    (b : ScanBest) : Prop :=
  ∃ th, b.payload = splitPayload ftypes X y b.feature th ∧
    b.split = (encodeFeature ftypes X y b.feature).map (fun v => decide (v < th))

theorem scanStep_ok_invariant (ftypes : List FeatureType) (X : List (List ℚ)) (y : List ℚ)
    (fs : List ℕ) (acc : Option ScanBest × List (List ℚ))
    (hacc : ∀ b, acc.1 = some b → ScanOk ftypes X y b) :
    ∀ b, (fs.foldl (scanStep ftypes X y) acc).1 = some b → ScanOk ftypes X y b := by
  induction fs generalizing acc with
  | nil => simpa using hacc
  | cons f fs ih =>
    rw [List.foldl_cons]
    apply ih
    intro b hb
    simp only [scanStep] at hb
    by_cases hguard : (encodeFeature ftypes X y f).all
        (fun v => decide (v = (encodeFeature ftypes X y f).headD 0)) = true
    · rw [if_pos hguard] at hb
      exact hacc b hb
    · rw [if_neg hguard] at hb
      simp only at hb
      rcases hacc2 : acc.1 with _ | old
      · rw [hacc2] at hb
        simp only [Option.some.injEq] at hb
        subst hb
        exact ⟨(find_best_split (encodeFeature ftypes X y f) y).threshold_best, rfl, rfl⟩
      · rw [hacc2] at hb
        split at hb
        · simp only [Option.some.injEq] at hb
          subst hb
          exact ⟨(find_best_split (encodeFeature ftypes X y f) y).threshold_best, rfl, rfl⟩
        · rename_i old2 heq
          injection heq with heq2
          subst heq2
          split at hb
          · simp only [Option.some.injEq] at hb
            subst hb
            exact ⟨(find_best_split (encodeFeature ftypes X y f) y).threshold_best, rfl, rfl⟩
          · simp only [Option.some.injEq] at hb
            subst hb
            exact hacc old hacc2

theorem scanFeatures_some_ok (ftypes : List FeatureType) (X : List (List ℚ)) (y : List ℚ)
    (b : ScanBest) (calls : List (List ℚ)) (h : scanFeatures ftypes X y = (some b, calls)) :
    ScanOk ftypes X y b := by
  apply scanStep_ok_invariant ftypes X y _ (none, []) (by simp)
  rw [scanFeatures] at h
  rw [h]

theorem column_getD (X : List (List ℚ)) (f i : ℕ) (hi : i < X.length) :
    (column X f).getD i 0 = (X.getD i []).getD f 0 := by
  rw [column]
  exact getD_map_of_lt (fun row => row.getD f 0) X i [] 0 hi

theorem route_iff_split (ftypes : List FeatureType) (X : List (List ℚ)) (y : List ℚ)
    (hlen : X.length = y.length) (fb : ℕ) (th : ℚ) (i : ℕ) (hi : i < y.length)
    (lnode rnode : Node) :
    predict_node ftypes (X.getD i [])
        (Node.nonterminal fb (splitPayload ftypes X y fb th) lnode rnode) =
      if ((encodeFeature ftypes X y fb).map (fun v => decide (v < th))).getD i false = true
      then predict_node ftypes (X.getD i []) lnode
      else predict_node ftypes (X.getD i []) rnode := by
  have hiX : i < X.length := by omega
  have hicol : i < (column X fb).length := by
    rw [column, List.length_map]
    omega
  have hcol := column_getD X fb i hiX
  rcases hft : ftypes.getD fb FeatureType.real with _ | _
  · have hpay : splitPayload ftypes X y fb th = SplitPayload.threshold th := by
      rw [splitPayload, hft]
    have henc : encodeFeature ftypes X y fb = column X fb := by
      rw [encodeFeature, hft]
    rw [hpay, henc]
    simp only [predict_node, hft, payloadThreshold]
    have hm : ((column X fb).map (fun v => decide (v < th))).getD i false =
        decide ((X.getD i []).getD fb 0 < th) := by
      rw [getD_map_of_lt (fun v => decide (v < th)) (column X fb) i 0 false hicol, hcol]
    rw [hm]
    by_cases hx : (X.getD i []).getD fb 0 < th
    · rw [if_pos hx, if_pos (by simpa using hx)]
    · rw [if_neg hx, if_neg (by simpa using hx)]
  · have hpay : splitPayload ftypes X y fb th =
        SplitPayload.categories (retainedCategories (sortedCategories (column X fb) y) th) := by
      rw [splitPayload, hft]
    have henc : encodeFeature ftypes X y fb =
        (column X fb).map (fun x => ((sortedCategories (column X fb) y).indexOf x : ℚ)) := by
      rw [encodeFeature, hft]
    rw [hpay, henc]
    simp only [predict_node, hft, payloadCategories]
    have hm : (((column X fb).map
        (fun x => ((sortedCategories (column X fb) y).indexOf x : ℚ))).map
          (fun v => decide (v < th))).getD i false =
        decide (((sortedCategories (column X fb) y).indexOf ((X.getD i []).getD fb 0) : ℚ)
          < th) := by
      rw [List.map_map, getD_map_of_lt _ (column X fb) i 0 false hicol]
      simp only [Function.comp]
      rw [hcol]
    rw [hm]
    have hmem : (X.getD i []).getD fb 0 ∈ column X fb := by
      rw [← hcol]
      exact getD_mem _ i 0 hicol
    have hiff : ((sortedCategories (column X fb) y).indexOf ((X.getD i []).getD fb 0) : ℚ)
        < th ↔
        (X.getD i []).getD fb 0 ∈ retainedCategories (sortedCategories (column X fb) y) th := by
      have hxc : (X.getD i []).getD fb 0 ∈ sortedCategories (column X fb) y :=
        (sortedCategories_perm _ _).mem_iff.mpr ((mem_distinctFirst _ _).mpr hmem)
      exact (retained_iff_rank_lt _ th _ hxc (nodup_sortedCategories _ _)).symm
    by_cases hx : (X.getD i []).getD fb 0 ∈
        retainedCategories (sortedCategories (column X fb) y) th
    · rw [if_pos hx, if_pos (by simpa using hiff.mpr hx)]
    · rw [if_neg hx, if_neg (by simp only [decide_eq_true_eq]; exact fun h => hx (hiff.mp h))]

theorem fit_pure_predict (mss : ℕ) (ftypes : List FeatureType) :
    ∀ (fuel : ℕ) (X : List (List ℚ)) (y : List ℚ), X.length = y.length →
      allLeavesPure mss ftypes fuel X y = true →
      ∃ node calls, fit_node mss ftypes fuel X y = some (node, calls) ∧
        ∀ i, i < y.length → predict_node ftypes (X.getD i []) node = y.getD i 0 := by
  intro fuel
  induction fuel with
  | zero =>
    intro X y _ hp
    simp [allLeavesPure] at hp
  | succ fuel ih =>
    intro X y hlen hp
    simp only [allLeavesPure] at hp
    by_cases h1 : y.all (fun v => decide (v = y.headD 0)) = true
    · refine ⟨Node.terminal (y.headD 0), [], ?_, ?_⟩
      · simp only [fit_node]
        rw [if_pos h1]
      · intro i hi
        simp only [predict_node]
        have hmem : y.getD i 0 ∈ y := getD_mem y i 0 hi
        have hv := (List.all_eq_true.mp h1) _ hmem
        simp only [decide_eq_true_eq] at hv
        exact hv.symm
    · rw [if_neg h1] at hp
      by_cases h2 : y.length ≤ mss
      · rw [if_pos h2] at hp
        simp at hp
      · rw [if_neg h2] at hp
        rcases hscan : scanFeatures ftypes X y with ⟨ob, calls₀⟩
        rw [hscan] at hp
        cases ob with
        | none => simp at hp
        | some b =>
          simp only [Bool.and_eq_true] at hp
          obtain ⟨hpl, hpr⟩ := hp
          obtain ⟨htrue, hfalse, hblen⟩ :=
            scanFeatures_some_split ftypes X y hlen b calls₀ hscan
          obtain ⟨th, hpay, hsplit⟩ := scanFeatures_some_ok ftypes X y b calls₀ hscan
          have hXblen : X.length = b.split.length := by rw [hlen, hblen]
          have hyblen : y.length = b.split.length := hblen.symm
          have hXnblen : X.length = (b.split.map (fun x => !x)).length := by
            rw [List.length_map]
            exact hXblen
          have hynblen : y.length = (b.split.map (fun x => !x)).length := by
            rw [List.length_map]
            exact hyblen
          have hXleq : (maskFilter X b.split).length = (maskFilter y b.split).length := by
            rw [length_maskFilter X _ hXblen, length_maskFilter y _ hyblen]
          have hXneq : (maskFilter X (b.split.map (fun x => !x))).length =
              (maskFilter y (b.split.map (fun x => !x))).length := by
            rw [length_maskFilter X _ hXnblen, length_maskFilter y _ hynblen]
          obtain ⟨lnode, lcalls, hLe, hLp⟩ := ih _ _ hXleq hpl
          obtain ⟨rnode, rcalls, hRe, hRp⟩ := ih _ _ hXneq hpr
          refine ⟨Node.nonterminal b.feature b.payload lnode rnode,
            calls₀ ++ lcalls ++ rcalls, ?_, ?_⟩
          · simp only [fit_node]
            rw [if_neg h1, if_neg h2, hscan]
            simp only
            rw [hLe, hRe]
          · intro i hi
            rw [hpay, route_iff_split ftypes X y hlen b.feature th i hi lnode rnode,
              ← hsplit]
            by_cases hmask : b.split.getD i false = true
            · rw [if_pos hmask]
              obtain ⟨hjX, hXe⟩ := maskFilter_getD X b.split i [] hXblen (by omega) hmask
              obtain ⟨hjy, hye⟩ := maskFilter_getD y b.split i 0 hyblen (by omega) hmask
              have hres := hLp ((b.split.take i).count true) hjy
              rwa [hXe, hye] at hres
            · rw [if_neg hmask]
              have hmask' : (b.split.map (fun x => !x)).getD i false = true := by
                rw [getD_map_of_lt (fun x => !x) b.split i false false (by omega)]
                simp only [Bool.not_eq_true] at hmask
                rw [hmask]
                rfl
              obtain ⟨hjX, hXe⟩ := maskFilter_getD X (b.split.map (fun x => !x)) i []
                hXnblen (by omega) hmask'
              obtain ⟨hjy, hye⟩ := maskFilter_getD y (b.split.map (fun x => !x)) i 0
                hynblen (by omega) hmask'
              have hres := hRp (((b.split.map (fun x => !x)).take i).count true) hjy
              rwa [hXe, hye] at hres

/-- C8: whenever the recursive fit (with the fuel used by `fit`) only ever
creates pure leaves, the fit succeeds and `predict` on the training matrix
reproduces the training labels exactly, one label per row in input order. -/
theorem C8_round_trip (ft : List FeatureType) (mss : ℕ) (md msl : Option ℕ)
    (X : List (List ℚ)) (y : List ℚ) (hlen : X.length = y.length)
    (hp : allLeavesPure mss ft (y.length + 1) X y = true) :
    ∃ node, (DecisionTree.mk ft md mss msl).fitTree X y = some node ∧
      (DecisionTree.mk ft md mss msl).predictList node X = y := by
  obtain ⟨node, calls, he, hpred⟩ := fit_pure_predict mss ft (y.length + 1) X y hlen hp
  refine ⟨node, ?_, ?_⟩
  · rw [DecisionTree.fitTree]
    simp only
    rw [he]
    rfl
  · rw [DecisionTree.predictList]
    apply List.ext_getElem
    · rw [List.length_map]
      exact hlen
    · intro i hi1 hi2
      rw [List.getElem_map]
      have hres := hpred i hi2
      rw [List.getD_eq_getElem X [] (by omega), List.getD_eq_getElem y 0 hi2] at hres
      exact hres

/-- C8 witness: instantiation at `X = [[0],[1]]`, `y = [0,1]`,
`min_samples_split = 1`, where both leaves are pure. -/
theorem C8_round_trip_witness :
    (([[0], [1]] : List (List ℚ)).length = ([0, 1] : List ℚ).length) ∧
    (allLeavesPure 1 [FeatureType.real] (([0, 1] : List ℚ).length + 1)
      [[0], [1]] [0, 1] = true) ∧
    (∃ node,
      (DecisionTree.mk [FeatureType.real] none 1 none).fitTree [[0], [1]] [0, 1] =
        some node ∧
      (DecisionTree.mk [FeatureType.real] none 1 none).predictList node [[0], [1]] =
        [0, 1]) :=
  ⟨by decide, by decide,
    C8_round_trip [FeatureType.real] 1 none none [[0], [1]] [0, 1] (by decide) (by decide)⟩

/-- C10 witness: instantiation at `X = [[0],[1]]`, `y = [0,1]`,
`min_samples_split = 1`, fuel `3`. -/
theorem C10_split_proper_and_total_witness :
    (([[0], [1]] : List (List ℚ)).length = ([0, 1] : List ℚ).length) ∧
    (([0, 1] : List ℚ) ≠ []) ∧
    (([0, 1] : List ℚ).length + 1 ≤ 3) ∧
    (∀ b calls, scanFeatures [FeatureType.real] [[0], [1]] [0, 1] = (some b, calls) →
      true ∈ b.split ∧ false ∈ b.split ∧ b.split.length = ([0, 1] : List ℚ).length) ∧
    (∃ r, fit_node 1 [FeatureType.real] 3 [[0], [1]] [0, 1] = some r) :=
  ⟨by decide, by decide, by decide,
    (C10_split_proper_and_total 1 [FeatureType.real] [[0], [1]] [0, 1]
      (by decide) (by decide)).1,
    (C10_split_proper_and_total 1 [FeatureType.real] [[0], [1]] [0, 1]
      (by decide) (by decide)).2 3 (by decide)⟩

end HW5
